import Mathlib

/-!
Verification of the cache-consistency / incremental-recomputation core of
`update_stats.py` (GitHub contribution-statistics updater).

Shallow embedding notes:
* Text is modelled as `List Char`; the cache file is a `List (List Char)`
  (the list of lines as returned by Python `readlines()`, each line normally
  ending in `'\n'`).
* The remote GraphQL commit-history endpoint is modelled as the sequence of
  responses the remote returns to the successive page requests of one
  repository (`List Fetch`): pagination is strictly sequential (page N's
  cursor is only known after page N-1 returns), so the response sequence
  determines the interaction.  An exhausted response list models a transport
  failure (`requests.RequestException`).
* `sha256(...).hexdigest()` is modelled as an abstract deterministic function
  `h : List Char → List Char`; theorems that need it assume the output is
  nonempty and whitespace-free, which is true of a hex digest.
* Machine integers: Python ints are unbounded, so `Int` is used for all
  numeric values that flow through the code; `int(...)` parsing is modelled
  by `parseInt` (decimal with optional sign, as applies to the tokens here).
* Fallible paths return `Except`: an uncaught Python exception is an
  `Except.error`.  `force_close_file` has no return value in the source; its
  effect (the file content it writes) is the `savedFile` field carried by the
  error, and the on-disk content after a `cache_builder` call is the `file`
  field of `CBOut`.
-/

/-- Python `str.split()` whitespace (the characters relevant here). -/
def isWS (c : Char) : Bool :=
  c = ' ' || c = '\t' || c = '\n' || c = '\r' || c = '\x0b' || c = '\x0c'

/-- Accumulator for `pySplit`: `acc` is the current token, reversed. -/
def pySplitAux : List Char → List Char → List (List Char)
  | acc, [] => if acc = [] then [] else [acc.reverse]
  | acc, c :: cs =>
    if isWS c then
      if acc = [] then pySplitAux [] cs else acc.reverse :: pySplitAux [] cs
    else pySplitAux (c :: acc) cs

/-- Python `str.split()` with no argument: split on runs of whitespace,
producing no empty tokens. -/
def pySplit (s : List Char) : List (List Char) := pySplitAux [] s

/-- Python `str.split(sep)` for a single-character separator: keeps empty
pieces (`"a//b".split('/') == ['a', '', 'b']`). -/
def splitOnChar (sep : Char) : List Char → List (List Char)
  | [] => [[]]
  | c :: cs =>
    if c = sep then [] :: splitOnChar sep cs
    else
      match splitOnChar sep cs with
      | t :: ts => (c :: t) :: ts
      | [] => [[c]]

/-- `owner, repo_name = repo_name.split('/')` — succeeds exactly when the
name contains exactly one `'/'` (two pieces), else a `ValueError`. -/
def splitSlash (s : List Char) : Option (List Char × List Char) :=
  match splitOnChar '/' s with
  | [o, r] => some (o, r)
  | _ => none

/-- Decimal digit character (`0 ↦ '0'`, …, `9 ↦ '9'`; total, clamped at 9 —
only ever applied to values `< 10`). -/
def digitChar (d : Nat) : Char :=
  if d = 0 then '0' else if d = 1 then '1' else if d = 2 then '2'
  else if d = 3 then '3' else if d = 4 then '4' else if d = 5 then '5'
  else if d = 6 then '6' else if d = 7 then '7' else if d = 8 then '8'
  else '9'

/-- Fuel-indexed decimal rendering of a natural number (structural recursion
so that concrete instances evaluate by `decide`). -/
def natCharsAux : Nat → Nat → List Char
  | 0, _ => []
  | fuel + 1, n =>
    if n < 10 then [digitChar n]
    else natCharsAux fuel (n / 10) ++ [digitChar (n % 10)]

/-- Decimal rendering of a natural number, as Python `str(n)` / f-string
interpolation produces it. -/
def natChars (n : Nat) : List Char := natCharsAux (n + 1) n

/-- Decimal rendering of a Python int (f-string interpolation). -/
def intChars (i : Int) : List Char :=
  if i < 0 then '-' :: natChars i.natAbs else natChars i.natAbs

/-- Is `c` an ASCII decimal digit? -/
def isDigitChar (c : Char) : Bool := 48 ≤ c.toNat && c.toNat ≤ 57

/-- Numeric value of a digit character. -/
def digitVal (c : Char) : Nat := c.toNat - 48

/-- Parse a nonempty all-digit token as a natural number. -/
def parseDigits (t : List Char) : Option Nat :=
  if t = [] then none
  else if t.all isDigitChar then
    some (t.foldl (fun a c => 10 * a + digitVal c) 0)
  else none

/-- Python `int(token)` on a whitespace-free token: optional sign followed by
decimal digits, else a `ValueError` (`none`). -/
def parseInt (t : List Char) : Option Int :=
  match t with
  | [] => none
  | c :: rest =>
    if c = '-' then (parseDigits rest).map (fun n => -(n : Int))
    else if c = '+' then (parseDigits rest).map (fun n => (n : Int))
    else (parseDigits (c :: rest)).map (fun n => (n : Int))

/-- One commit as consumed by `loc_counter_one_repo`: the author's user id
(`none` when the commit's author has no associated user) and its line
additions/deletions.  The queried `committedDate` field is never read by the
loop and is omitted. -/
structure CommitNode where
  author : Option (List Char)
  additions : Int
  deletions : Int
deriving DecidableEq, Repr

/-- `pageInfo` of one history page. -/
structure PageInfo where
  endCursor : Option (List Char)
  hasNextPage : Bool
deriving DecidableEq, Repr

/-- One page of commit history (`history` object of the GraphQL response). -/
structure History where
  edges : List CommitNode
  pageInfo : PageInfo
deriving DecidableEq, Repr

/-- One remote response to a commit-history page request:
`ok none` = HTTP 200 with `defaultBranchRef == null`; `ok (some hist)` =
HTTP 200 with a history page; `httpErr` = non-200 status; `netErr` = a
`requests.RequestException` transport failure. -/
inductive Fetch where
  | ok (branch : Option History)
  | httpErr (status : Int) (text : List Char)
  | netErr (msg : List Char)
deriving DecidableEq, Repr

/-- The diagnostic raised by `recursive_loc` on a failed page request
(the exact message strings are abstracted to their three distinguished
shapes). -/
inductive LocErrMsg where
  | rateLimited
  | httpStatus (status : Int) (text : List Char)
  | transport (msg : List Char)
deriving DecidableEq, Repr

/-- `force_close_file(data, cache_comment)`: the cache-file content written
before the fatal error propagates — the comment block followed by the
in-memory entry lines. -/
def force_close_file (data cache_comment : List (List Char)) : List (List Char) :=
  cache_comment ++ data

/-- A fatal accumulation failure: the file content saved by
`force_close_file` plus the diagnostic. -/
structure LocFailure where
  savedFile : List (List Char)
  msg : LocErrMsg
deriving DecidableEq, Repr

/-- The author-filtered summation loop at the top of `loc_counter_one_repo`:
for each commit whose author's user equals `OWNER_ID`, add its additions and
deletions and count it.  Returns `(addition_total, deletion_total,
my_commits)`. -/
def foldCommits (ownerId : List Char) :
    List CommitNode → Int → Int → Int → Int × Int × Int
  | [], a, d, m => (a, d, m)
  | n :: rest, a, d, m =>
    if n.author = some ownerId then
      foldCommits ownerId rest (a + n.additions) (d + n.deletions) (m + 1)
    else foldCommits ownerId rest a d m

/-- `recursive_loc(owner, repo_name, data, cache_comment, ...)`: issue the
next commit-history page request and process the result.  `pages` is the
sequence of remote responses to the successive requests of this repository
(an exhausted list models a transport failure).  On HTTP 200 with a default
branch the body of `loc_counter_one_repo` runs (fold the page's commits,
then stop if the page is empty or has no next page, else recurse on the next
cursor); on `defaultBranchRef == null` it returns `(0, 0, 0)`; on any failure
`force_close_file` writes `cache_comment ++ data` and the error propagates
(status 403 carrying the distinguished anti-abuse message). -/
def recursive_loc (ownerId : List Char) :
    List Fetch → List (List Char) → List (List Char) → Int → Int → Int →
    Except LocFailure (Int × Int × Int)
  | [], data, cache_comment, _, _, _ =>
    .error ⟨force_close_file data cache_comment, .transport ['?']⟩
  | .ok none :: _, _, _, _, _, _ => .ok (0, 0, 0)
  | .ok (some hist) :: rest, data, cache_comment, a, d, m =>
    let acc := foldCommits ownerId hist.edges a d m
    if hist.edges = [] || !hist.pageInfo.hasNextPage then .ok acc
    else recursive_loc ownerId rest data cache_comment acc.1 acc.2.1 acc.2.2
  | .httpErr s t :: _, data, cache_comment, _, _, _ =>
    .error ⟨force_close_file data cache_comment,
            if s = 403 then .rateLimited else .httpStatus s t⟩
  | .netErr msg :: _, data, cache_comment, _, _, _ =>
    .error ⟨force_close_file data cache_comment, .transport msg⟩

/-- `loc_counter_one_repo(owner, repo_name, data, cache_comment, history,
addition_total, deletion_total, my_commits)`: fold the current page's
commits into the running totals; if the page has no commits or no next page,
return the totals, else continue pagination (`pages` being the remote
responses to the remaining requests). -/
def loc_counter_one_repo (ownerId : List Char) (pages : List Fetch)
    (data cache_comment : List (List Char)) (hist : History)
    (a d m : Int) : Except LocFailure (Int × Int × Int) :=
  let acc := foldCommits ownerId hist.edges a d m
  if hist.edges = [] || !hist.pageInfo.hasNextPage then .ok acc
  else recursive_loc ownerId pages data cache_comment acc.1 acc.2.1 acc.2.2

/-- One repository record of the live listing, as consumed by
`cache_builder`: the `nameWithOwner` string and, when the repository has a
default branch, the authoritative `history.totalCount` of that branch
(`defaultBranchRef == null` — accessing `...['target']` then raises the
`TypeError` the code catches — is `none`). -/
structure Edge where
  nameWithOwner : List Char
  defaultBranchTotal : Option Int
deriving DecidableEq, Repr

/-- A fatal `cache_builder` failure: `corrupt` is an uncaught
`ValueError`/`IndexError` from a malformed cache line (no save is attempted
on that path); `locFail` is an accumulation failure, after
`force_close_file` has saved the in-flight cache state. -/
inductive BuildErr where
  | corrupt
  | locFail (f : LocFailure)
deriving DecidableEq, Repr

/-- The `[loc_add, loc_del, loc_add - loc_del, cached]` list returned by
`cache_builder`. -/
structure BuildResult where
  locAdd : Int
  locDel : Int
  netLoc : Int
  cached : Bool
deriving DecidableEq, Repr

deriving instance DecidableEq for Except

/-- Observable outcome of one `cache_builder` call: the cache-file content
on disk afterwards, the indices for which `recursive_loc` (the Accumulator)
was invoked, and the returned value or the propagated error. -/
structure CBOut where
  file : List (List Char)
  invoked : List Nat
  outcome : Except BuildErr BuildResult
deriving DecidableEq, Repr

/-- The placeholder comment line written when the cache file is created. -/
def commentLine : List Char :=
  "This line is a comment block. Write whatever you want here.\n".data

/-- The cache-entry line
`f"{repo_hash} {commitCount} {myCommits} {additions} {deletions}\n"`. -/
def mkEntryLine (hsh : List Char) (c m a d : Int) : List Char :=
  hsh ++ ' ' :: intChars c ++ ' ' :: intChars m ++ ' ' :: intChars a ++
    ' ' :: intChars d ++ ['\n']

/-- The `try/except FileNotFoundError` prologue of `cache_builder`: read the
cache file, or create it holding `comment_size` placeholder comment lines. -/
def readOrCreate (comment_size : Nat) : Option (List (List Char)) → List (List Char)
  | some d => d
  | none => List.replicate comment_size commentLine

/-- `flush_cache(edges, filename, comment_size)`: keep only the first
`comment_size` lines of the current file (none when `comment_size == 0`),
then one zeroed entry `f"{repo_hash} 0 0 0 0\n"` per repository in listing
order. -/
def flush_cache (h : List Char → List Char) (edges : List Edge)
    (fileData : List (List Char)) (comment_size : Nat) : List (List Char) :=
  (if 0 < comment_size then fileData.take comment_size else []) ++
    edges.map (fun e => mkEntryLine (h e.nameWithOwner) 0 0 0 0)

/-- One iteration of the reconciliation loop of `cache_builder` (lines
416–430) at `index`: unpack `repo_hash, commit_count, *__` from the stored
line (a short line is an uncaught `ValueError`); when the stored hash equals
the hash of the live name: a missing default branch (`TypeError`) zeroes the
entry; otherwise `int(commit_count)` is compared with the live count and on
mismatch the Accumulator is invoked (`recursive_loc` over `locPages index`)
and the entry overwritten with the live count and the fresh totals.  Returns
the updated entry lines and whether the Accumulator was invoked. -/
def reconcileStep (h : List Char → List Char) (ownerId : List Char)
    (locPages : Nat → List Fetch) (cache_comment : List (List Char))
    (index : Nat) (edge : Edge) (data : List (List Char)) :
    Except BuildErr (List (List Char)) × Bool :=
  match data[index]? with
  | none => (.error .corrupt, false)
  | some line =>
    match pySplit line with
    | repo_hash :: commit_count :: _ =>
      if repo_hash = h edge.nameWithOwner then
        match edge.defaultBranchTotal with
        | none => (.ok (data.set index (mkEntryLine repo_hash 0 0 0 0)), false)
        | some current_commit_count =>
          match parseInt commit_count with
          | none => (.error .corrupt, false)
          | some cc =>
            if cc = current_commit_count then (.ok data, false)
            else
              match splitSlash edge.nameWithOwner with
              | none => (.error .corrupt, false)
              | some _ =>
                match recursive_loc ownerId (locPages index) data cache_comment 0 0 0 with
                | .error f => (.error (.locFail f), true)
                | .ok loc =>
                  (.ok (data.set index
                    (mkEntryLine repo_hash current_commit_count loc.2.2 loc.1 loc.2.1)), true)
      else (.ok data, false)
    | _ => (.error .corrupt, false)

/-- `for index in range(len(edges))`: run `reconcileStep` at indices
`i, i+1, …`, threading the entry lines and collecting the invoked indices;
the first failure aborts the pass. -/
def reconcileLoop (h : List Char → List Char) (ownerId : List Char)
    (locPages : Nat → List Fetch) (cache_comment : List (List Char)) :
    Nat → List Edge → List (List Char) →
    Except BuildErr (List (List Char)) × List Nat
  | _, [], data => (.ok data, [])
  | i, e :: rest, data =>
    match reconcileStep h ownerId locPages cache_comment i e data with
    | (.error err, inv) => (.error err, if inv then [i] else [])
    | (.ok d', inv) =>
      match reconcileLoop h ownerId locPages cache_comment (i + 1) rest d' with
      | (r, invs) => (r, (if inv then [i] else []) ++ invs)

/-- The aggregation loop of `cache_builder` (lines 436–439):
`loc_add += int(loc[3]); loc_del += int(loc[4])` per entry line; a line with
fewer than five tokens or non-numeric fields is an uncaught
`IndexError`/`ValueError` (`none`). -/
def aggregate : List (List Char) → Int → Int → Option (Int × Int)
  | [], loc_add, loc_del => some (loc_add, loc_del)
  | line :: rest, loc_add, loc_del =>
    match (pySplit line)[3]?, (pySplit line)[4]? with
    | some t3, some t4 =>
      match parseInt t3, parseInt t4 with
      | some x, some y => aggregate rest (loc_add + x) (loc_del + y)
      | _, _ => none
    | _, _ => none

/-- The tail of `cache_builder` after the reconciliation loop (lines
432–441): on success write `cache_comment ++ data` back and aggregate
(`cached` was fixed before the loop); on an accumulation failure the disk
holds what `force_close_file` saved; on a malformed-line error the disk
holds the last content written before the loop. -/
def cbFinish (cache_comment data1 : List (List Char))
    (res : Except BuildErr (List (List Char)) × List Nat)
    (loc_add loc_del : Int) (cached : Bool) : CBOut :=
  match res with
  | (.error (.locFail f), invs) => ⟨f.savedFile, invs, .error (.locFail f)⟩
  | (.error .corrupt, invs) => ⟨data1, invs, .error .corrupt⟩
  | (.ok dataF, invs) =>
    match aggregate dataF loc_add loc_del with
    | none => ⟨cache_comment ++ dataF, invs, .error .corrupt⟩
    | some (a, d) => ⟨cache_comment ++ dataF, invs, .ok ⟨a, d, a - d, cached⟩⟩

/-- `cache_builder(edges, comment_size, force_cache, loc_add=0, loc_del=0)`:
read or create the cache file; if the stored entry count differs from the
live listing length or a rebuild is forced, set `cached = False` and flush;
split off the comment block; run the reconciliation loop and finish. -/
def cache_builder (h : List Char → List Char) (ownerId : List Char)
    (locPages : Nat → List Fetch) (edges : List Edge) (comment_size : Nat)
    (force_cache : Bool) (file0 : Option (List (List Char)))
    (loc_add loc_del : Int) : CBOut :=
  let data0 := readOrCreate comment_size file0
  let flushNeeded : Bool :=
    (((data0.length : Int) - (comment_size : Int)) != (edges.length : Int)) || force_cache
  let data1 := if flushNeeded then flush_cache h edges data0 comment_size else data0
  let cache_comment := data1.take comment_size
  let dataE := data1.drop comment_size
  cbFinish cache_comment data1
    (reconcileLoop h ownerId locPages cache_comment 0 edges dataE)
    loc_add loc_del (!flushNeeded)

/-- What `reconcileStep` does at one index as a function of the stored line
alone (on the success path the Accumulator's result does not depend on the
`data`/`cache_comment` arguments, which only feed the failure save):
`none` when the step raises, `some (newLine, invoked)` otherwise. -/
def stepOnLine (h : List Char → List Char) (ownerId : List Char)
    (locPages : Nat → List Fetch) (index : Nat) (edge : Edge)
    (line : List Char) : Option (List Char × Bool) :=
  match pySplit line with
  | repo_hash :: commit_count :: _ =>
    if repo_hash = h edge.nameWithOwner then
      match edge.defaultBranchTotal with
      | none => some (mkEntryLine repo_hash 0 0 0 0, false)
      | some current_commit_count =>
        match parseInt commit_count with
        | none => none
        | some cc =>
          if cc = current_commit_count then some (line, false)
          else
            match splitSlash edge.nameWithOwner with
            | none => none
            | some _ =>
              match recursive_loc ownerId (locPages index) [] [] 0 0 0 with
              | .error _ => none
              | .ok loc =>
                some (mkEntryLine repo_hash current_commit_count loc.2.2 loc.1 loc.2.1, true)
    else some (line, false)
  | _ => none

/-- A whitespace-free, nonempty token (what `str.split()` reproduces
verbatim). -/
def CleanToken (t : List Char) : Prop := t ≠ [] ∧ ∀ c ∈ t, isWS c = false

/-- The modelled hash always yields a clean token — true of
`sha256(...).hexdigest()`, a nonempty lowercase-hex string. -/
def CleanHash (h : List Char → List Char) : Prop := ∀ s, CleanToken (h s)

/-- The additions field (`int(line.split()[3])`) of a cache entry line. -/
def lineAdd (line : List Char) : Option Int := (pySplit line)[3]?.bind parseInt

/-- The deletions field (`int(line.split()[4])`) of a cache entry line. -/
def lineDel (line : List Char) : Option Int := (pySplit line)[4]?.bind parseInt

/-- A successful page dispatches from `recursive_loc` to
`loc_counter_one_repo` (definitional agreement of the embedding with the
source call at line 258). -/
theorem recursive_loc_dispatch (ownerId : List Char) (hist : History)
    (rest : List Fetch) (data cache_comment : List (List Char)) (a d m : Int) :
    recursive_loc ownerId (.ok (some hist) :: rest) data cache_comment a d m =
      loc_counter_one_repo ownerId rest data cache_comment hist a d m := rfl

/-- The `data`/`cache_comment` arguments of `recursive_loc` only determine
the content saved on failure: the call equals the canonical call with empty
file state, with the saved file replaced by `cache_comment ++ data`. -/
theorem recursive_loc_canonical (ownerId : List Char) :
    ∀ (pages : List Fetch) (data cache_comment : List (List Char)) (a d m : Int),
      recursive_loc ownerId pages data cache_comment a d m =
        match recursive_loc ownerId pages [] [] a d m with
        | .ok r => .ok r
        | .error f => .error ⟨cache_comment ++ data, f.msg⟩ := by
  intro pages
  induction pages with
  | nil => intro data cc a d m; simp [recursive_loc, force_close_file]
  | cons p rest ih =>
    intro data cc a d m
    cases p with
    | ok branch =>
      cases branch with
      | none => simp [recursive_loc]
      | some hist =>
        simp only [recursive_loc]
        split
        · rfl
        · exact ih data cc _ _ _
    | httpErr s t => simp [recursive_loc, force_close_file]
    | netErr msg => simp [recursive_loc, force_close_file]

/-- Any failing `recursive_loc` call has first saved
`cache_comment ++ data` to the cache file. -/
theorem recursive_loc_error_savedFile (ownerId : List Char)
    (pages : List Fetch) (data cache_comment : List (List Char))
    (a d m : Int) (f : LocFailure)
    (hf : recursive_loc ownerId pages data cache_comment a d m = .error f) :
    f.savedFile = cache_comment ++ data := by
  rw [recursive_loc_canonical] at hf
  revert hf
  split
  · intro hf; cases hf
  · intro hf; cases hf; rfl

/-- Claim C8: when the queried repository has no default branch,
`recursive_loc` returns `(0, 0, 0)` immediately — no error, and no further
remote request is issued (the result is independent of every response after
the current one). -/
theorem recursive_loc_no_default_branch (ownerId : List Char)
    (rest : List Fetch) (data cache_comment : List (List Char))
    (a d m : Int) :
    recursive_loc ownerId (.ok none :: rest) data cache_comment a d m =
      .ok (0, 0, 0) := rfl

/-- Claim C10: when the current page has no commit edges,
`loc_counter_one_repo` returns the running totals immediately — for any
remaining remote responses and any `pageInfo`, including `hasNextPage =
true` — so an empty page always terminates pagination. -/
theorem loc_counter_empty_page_terminates (ownerId : List Char)
    (pages : List Fetch) (data cache_comment : List (List Char))
    (pi : PageInfo) (a d m : Int) :
    loc_counter_one_repo ownerId pages data cache_comment ⟨[], pi⟩ a d m =
      .ok (a, d, m) := by
  simp [loc_counter_one_repo, foldCommits]

/-- Claim C7 (amended): `loc_counter_one_repo` folds the current page's
commits into the running totals and then (1) stops exactly there whenever
the page reports `hasNextPage = false`, and (2) for a page that has commits
and reports `hasNextPage = true`, continues pagination with the folded
totals; (an empty page also stops regardless of the flag, see the
counterexample and C10). -/
theorem loc_counter_pagination (ownerId : List Char) (pages : List Fetch)
    (data cache_comment : List (List Char)) (hist : History) (a d m : Int) :
    (hist.pageInfo.hasNextPage = false →
      loc_counter_one_repo ownerId pages data cache_comment hist a d m =
        .ok (foldCommits ownerId hist.edges a d m)) ∧
    (hist.pageInfo.hasNextPage = true → hist.edges ≠ [] →
      loc_counter_one_repo ownerId pages data cache_comment hist a d m =
        recursive_loc ownerId pages data cache_comment
          (foldCommits ownerId hist.edges a d m).1
          (foldCommits ownerId hist.edges a d m).2.1
          (foldCommits ownerId hist.edges a d m).2.2) := by
  constructor
  · intro hflag
    simp [loc_counter_one_repo, hflag]
  · intro hflag hne
    simp [loc_counter_one_repo, hflag, hne]

/-- Witness for C7: one page with a matching commit and `hasNextPage =
false` stops with the folded totals; one page with a commit and
`hasNextPage = true` continues with the folded totals. -/
theorem loc_counter_pagination_witness :
    (loc_counter_one_repo ['o'] [] [] []
        ⟨[⟨some ['o'], 10, 4⟩], ⟨none, false⟩⟩ 0 0 0 =
      .ok (foldCommits ['o'] [⟨some ['o'], 10, 4⟩] 0 0 0)) ∧
    (loc_counter_one_repo ['o'] [Fetch.ok (some ⟨[], ⟨none, false⟩⟩)] [] []
        ⟨[⟨some ['o'], 1, 2⟩], ⟨none, true⟩⟩ 0 0 0 =
      recursive_loc ['o'] [Fetch.ok (some ⟨[], ⟨none, false⟩⟩)] [] []
        (foldCommits ['o'] [⟨some ['o'], 1, 2⟩] 0 0 0).1
        (foldCommits ['o'] [⟨some ['o'], 1, 2⟩] 0 0 0).2.1
        (foldCommits ['o'] [⟨some ['o'], 1, 2⟩] 0 0 0).2.2) :=
  ⟨(loc_counter_pagination ['o'] [] [] [] ⟨[⟨some ['o'], 10, 4⟩], ⟨none, false⟩⟩ 0 0 0).1 rfl,
   (loc_counter_pagination ['o'] [Fetch.ok (some ⟨[], ⟨none, false⟩⟩)] [] []
      ⟨[⟨some ['o'], 1, 2⟩], ⟨none, true⟩⟩ 0 0 0).2 rfl (by decide)⟩

/-- Counterexample to C7 as stated: a page with no commit edges but
`hasNextPage = true` still terminates pagination (the call returns the
running totals instead of requesting the next page, which here would have
failed with a transport error) — so the processor does not stop *exactly*
when `hasNextPage` is false. -/
theorem loc_counter_pagination_cex :
    (PageInfo.mk none true).hasNextPage = true ∧
    loc_counter_one_repo ['o'] [Fetch.netErr []] [] []
      ⟨[], ⟨none, true⟩⟩ 3 4 5 = .ok (3, 4, 5) := by
  constructor
  · rfl
  · decide

/-- Setting an index to the value it already holds leaves the list
unchanged. -/
theorem set_getElem_self {α : Type} (l : List α) (i : Nat) (x : α)
    (hx : l[i]? = some x) : l.set i x = l := by
  induction l generalizing i with
  | nil => simp at hx
  | cons a t ih =>
    cases i with
    | zero => simp_all
    | succ n => simp_all

/-- A successful `reconcileStep` is determined by the stored line alone:
it read some line at its index and replaced it by what `stepOnLine`
computes from that line. -/
theorem reconcileStep_ok (h : List Char → List Char) (ownerId : List Char)
    (locPages : Nat → List Fetch) (cache_comment : List (List Char))
    (i : Nat) (e : Edge) (data d' : List (List Char)) (inv : Bool)
    (hstep : reconcileStep h ownerId locPages cache_comment i e data = (.ok d', inv)) :
    ∃ line l', data[i]? = some line ∧
      stepOnLine h ownerId locPages i e line = some (l', inv) ∧
      d' = data.set i l' := by
  cases hdl : data[i]? with
  | none => simp [reconcileStep, hdl] at hstep
  | some line =>
    refine ⟨line, ?_⟩
    cases hsp : pySplit line with
    | nil => simp [reconcileStep, hdl, hsp] at hstep
    | cons t0 r1 =>
      cases r1 with
      | nil => simp [reconcileStep, hdl, hsp] at hstep
      | cons t1 ts =>
        by_cases hh : t0 = h e.nameWithOwner
        · cases hdb : e.defaultBranchTotal with
          | none =>
            simp only [reconcileStep, stepOnLine, hdl, hsp, hh, if_true, hdb,
              Prod.mk.injEq, Except.ok.injEq, eq_self_iff_true] at hstep ⊢
            obtain ⟨rfl, rfl⟩ := hstep
            simp
          | some cur =>
            cases hpi : parseInt t1 with
            | none => simp [reconcileStep, hdl, hsp, hh, hdb, hpi] at hstep
            | some cc =>
              by_cases hcc : cc = cur
              · simp only [reconcileStep, stepOnLine, hdl, hsp, hh, if_true, hdb, hpi,
                  hcc, Prod.mk.injEq, Except.ok.injEq, eq_self_iff_true] at hstep ⊢
                obtain ⟨rfl, rfl⟩ := hstep
                exact ⟨line, trivial, rfl, (set_getElem_self data i line hdl).symm⟩
              · cases hss : splitSlash e.nameWithOwner with
                | none => simp [reconcileStep, hdl, hsp, hh, hdb, hpi, hcc, hss] at hstep
                | some pr =>
                  cases hrl : recursive_loc ownerId (locPages i) data cache_comment 0 0 0 with
                  | error f => simp [reconcileStep, hdl, hsp, hh, hdb, hpi, hcc, hss, hrl] at hstep
                  | ok loc =>
                    have hcan : recursive_loc ownerId (locPages i) [] [] 0 0 0 = .ok loc := by
                      have hc := recursive_loc_canonical ownerId (locPages i) data cache_comment 0 0 0
                      rw [hrl] at hc
                      revert hc
                      cases recursive_loc ownerId (locPages i) [] [] 0 0 0 with
                      | ok r => intro hc; cases hc; rfl
                      | error f => intro hc; cases hc
                    simp only [reconcileStep, stepOnLine, hdl, hsp, hh, if_true, hdb, hpi,
                      hcc, if_false, hss, hrl, hcan, Prod.mk.injEq, Except.ok.injEq,
                      eq_self_iff_true] at hstep ⊢
                    obtain ⟨rfl, rfl⟩ := hstep
                    simp
        · simp only [reconcileStep, stepOnLine, hdl, hsp, hh, if_false,
            Prod.mk.injEq, Except.ok.injEq] at hstep ⊢
          obtain ⟨rfl, rfl⟩ := hstep
          exact ⟨line, trivial, rfl, (set_getElem_self data i line hdl).symm⟩

/-- Converse characterization: if the stored line produces `some (l', inv)`
under `stepOnLine`, the step succeeds and overwrites its index with `l'`. -/
theorem reconcileStep_of_stepOnLine (h : List Char → List Char)
    (ownerId : List Char) (locPages : Nat → List Fetch)
    (cache_comment : List (List Char)) (i : Nat) (e : Edge)
    (data : List (List Char)) (line l' : List Char) (inv : Bool)
    (hdl : data[i]? = some line)
    (hs : stepOnLine h ownerId locPages i e line = some (l', inv)) :
    reconcileStep h ownerId locPages cache_comment i e data =
      (.ok (data.set i l'), inv) := by
  cases hsp : pySplit line with
  | nil => simp [stepOnLine, hsp] at hs
  | cons t0 r1 =>
    cases r1 with
    | nil => simp [stepOnLine, hsp] at hs
    | cons t1 ts =>
      by_cases hh : t0 = h e.nameWithOwner
      · cases hdb : e.defaultBranchTotal with
        | none =>
          simp only [stepOnLine, hsp, hh, if_true, hdb, Option.some.injEq,
            Prod.mk.injEq] at hs
          obtain ⟨rfl, rfl⟩ := hs
          simp [reconcileStep, hdl, hsp, hh, hdb]
        | some cur =>
          cases hpi : parseInt t1 with
          | none => simp [stepOnLine, hsp, hh, hdb, hpi] at hs
          | some cc =>
            by_cases hcc : cc = cur
            · simp only [stepOnLine, hsp, hh, if_true, hdb, hpi, hcc,
                Option.some.injEq, Prod.mk.injEq, eq_self_iff_true] at hs
              obtain ⟨rfl, rfl⟩ := hs
              rw [set_getElem_self data i line hdl]
              simp [reconcileStep, hdl, hsp, hh, hdb, hpi, hcc]
            · cases hss : splitSlash e.nameWithOwner with
              | none => simp [stepOnLine, hsp, hh, hdb, hpi, hcc, hss] at hs
              | some pr =>
                cases hrl : recursive_loc ownerId (locPages i) [] [] 0 0 0 with
                | error f => simp [stepOnLine, hsp, hh, hdb, hpi, hcc, hss, hrl] at hs
                | ok loc =>
                  have hact : recursive_loc ownerId (locPages i) data cache_comment 0 0 0
                      = .ok loc := by
                    rw [recursive_loc_canonical, hrl]
                  simp only [stepOnLine, hsp, hh, if_true, hdb, hpi, hcc, if_false,
                    hss, hrl, Option.some.injEq, Prod.mk.injEq] at hs
                  obtain ⟨rfl, rfl⟩ := hs
                  simp [reconcileStep, hdl, hsp, hh, hdb, hpi, hcc, hss, hact]
      · simp only [stepOnLine, hsp, hh, if_false, Option.some.injEq,
          Prod.mk.injEq] at hs
        obtain ⟨rfl, rfl⟩ := hs
        rw [set_getElem_self data i line hdl]
        simp [reconcileStep, hdl, hsp, hh]

/-- A successful reconciliation pass preserves the number of entry lines. -/
theorem reconcileLoop_ok_length (h : List Char → List Char)
    (ownerId : List Char) (locPages : Nat → List Fetch)
    (cache_comment : List (List Char)) :
    ∀ (es : List Edge) (i : Nat) (data dataF : List (List Char)) (invs : List Nat),
      reconcileLoop h ownerId locPages cache_comment i es data = (.ok dataF, invs) →
      dataF.length = data.length := by
  intro es
  induction es with
  | nil => intro i data dataF invs hl; simp [reconcileLoop] at hl; simp [hl.1.symm]
  | cons e rest ih =>
    intro i data dataF invs hl
    simp only [reconcileLoop] at hl
    cases hstep : reconcileStep h ownerId locPages cache_comment i e data with
    | mk r inv =>
      rw [hstep] at hl
      cases r with
      | error err => simp at hl
      | ok d' =>
        dsimp only at hl
        cases hrest : reconcileLoop h ownerId locPages cache_comment (i + 1) rest d' with
        | mk r2 invs2 =>
          rw [hrest] at hl
          simp only [Prod.mk.injEq] at hl
          obtain ⟨line, l', hdl, hs, rfl⟩ :=
            reconcileStep_ok h ownerId locPages cache_comment i e data d' inv hstep
          have := ih (i + 1) _ dataF invs2 (by rw [hrest]; exact Prod.ext hl.1 rfl)
          simpa using this

/-- A successful reconciliation pass starting at index `i` does not modify
any entry line below `i`. -/
theorem reconcileLoop_ok_frame (h : List Char → List Char)
    (ownerId : List Char) (locPages : Nat → List Fetch)
    (cache_comment : List (List Char)) :
    ∀ (es : List Edge) (i : Nat) (data dataF : List (List Char)) (invs : List Nat),
      reconcileLoop h ownerId locPages cache_comment i es data = (.ok dataF, invs) →
      ∀ j, j < i → dataF[j]? = data[j]? := by
  intro es
  induction es with
  | nil =>
    intro i data dataF invs hl j hj
    simp [reconcileLoop] at hl
    rw [hl.1.symm]
  | cons e rest ih =>
    intro i data dataF invs hl j hj
    simp only [reconcileLoop] at hl
    cases hstep : reconcileStep h ownerId locPages cache_comment i e data with
    | mk r inv =>
      rw [hstep] at hl
      cases r with
      | error err => simp at hl
      | ok d' =>
        dsimp only at hl
        cases hrest : reconcileLoop h ownerId locPages cache_comment (i + 1) rest d' with
        | mk r2 invs2 =>
          rw [hrest] at hl
          simp only [Prod.mk.injEq] at hl
          obtain ⟨line, l', hdl, hs, rfl⟩ :=
            reconcileStep_ok h ownerId locPages cache_comment i e data d' inv hstep
          have hstepj : (data.set i l')[j]? = data[j]? :=
            List.getElem?_set_ne (by omega)
          have := ih (i + 1) _ dataF invs2 (by rw [hrest]; exact Prod.ext hl.1 rfl)
            j (by omega)
          rw [this, hstepj]

/-- Every index the reconciliation loop records as invoked is at least the
starting index. -/
theorem reconcileLoop_invs_ge (h : List Char → List Char)
    (ownerId : List Char) (locPages : Nat → List Fetch)
    (cache_comment : List (List Char)) :
    ∀ (es : List Edge) (i : Nat) (data : List (List Char))
      (r : Except BuildErr (List (List Char))) (invs : List Nat),
      reconcileLoop h ownerId locPages cache_comment i es data = (r, invs) →
      ∀ j ∈ invs, i ≤ j := by
  intro es
  induction es with
  | nil =>
    intro i data r invs hl j hj
    simp [reconcileLoop] at hl
    rw [hl.2] at hj
    simp at hj
  | cons e rest ih =>
    intro i data r invs hl j hj
    simp only [reconcileLoop] at hl
    cases hstep : reconcileStep h ownerId locPages cache_comment i e data with
    | mk r0 inv =>
      rw [hstep] at hl
      cases r0 with
      | error err =>
        dsimp only at hl
        simp only [Prod.mk.injEq] at hl
        rw [← hl.2] at hj
        cases inv with
        | false => simp at hj
        | true => simp at hj; omega
      | ok d' =>
        dsimp only at hl
        cases hrest : reconcileLoop h ownerId locPages cache_comment (i + 1) rest d' with
        | mk r2 invs2 =>
          rw [hrest] at hl
          simp only [Prod.mk.injEq] at hl
          rw [← hl.2] at hj
          have hsub : j ∈ invs2 → i ≤ j := by
            intro hj2
            have := ih (i + 1) d' r2 invs2 hrest j hj2
            omega
          cases inv with
          | false =>
            simp at hj
            exact hsub hj
          | true =>
            simp at hj
            rcases hj with rfl | hj
            · omega
            · exact hsub hj

/-- Pointwise characterization of a successful reconciliation pass: the
final line at each processed index, and whether that index invoked the
Accumulator, are exactly what `stepOnLine` computes from the line the pass
started with at that index (earlier steps never touch later indices). -/
theorem reconcileLoop_ok_pointwise (h : List Char → List Char)
    (ownerId : List Char) (locPages : Nat → List Fetch)
    (cache_comment : List (List Char)) :
    ∀ (es : List Edge) (i : Nat) (data dataF : List (List Char)) (invs : List Nat),
      reconcileLoop h ownerId locPages cache_comment i es data = (.ok dataF, invs) →
      ∀ (k : Nat) (e : Edge), es[k]? = some e →
        ∃ line l' inv,
          data[i + k]? = some line ∧
          stepOnLine h ownerId locPages (i + k) e line = some (l', inv) ∧
          dataF[i + k]? = some l' ∧
          ((i + k) ∈ invs ↔ inv = true) := by
  intro es
  induction es with
  | nil => intro i data dataF invs hl k e hk; simp at hk
  | cons e0 rest ih =>
    intro i data dataF invs hl k e hk
    simp only [reconcileLoop] at hl
    cases hstep : reconcileStep h ownerId locPages cache_comment i e0 data with
    | mk r inv0 =>
      rw [hstep] at hl
      cases r with
      | error err => simp at hl
      | ok d' =>
        dsimp only at hl
        cases hrest : reconcileLoop h ownerId locPages cache_comment (i + 1) rest d' with
        | mk r2 invs2 =>
          rw [hrest] at hl
          simp only [Prod.mk.injEq] at hl
          obtain ⟨hr2, hinvs⟩ := hl
          obtain ⟨line0, l0, hdl0, hs0, rfl⟩ :=
            reconcileStep_ok h ownerId locPages cache_comment i e0 data d' inv0 hstep
          have hrest' : reconcileLoop h ownerId locPages cache_comment (i + 1) rest
              (data.set i l0) = (.ok dataF, invs2) := by
            rw [hrest]; exact Prod.ext hr2 rfl
          have hge := reconcileLoop_invs_ge h ownerId locPages cache_comment rest
            (i + 1) (data.set i l0) (.ok dataF) invs2 hrest'
          cases k with
          | zero =>
            have he : e0 = e := by simpa using hk
            subst he
            have hlt : i < data.length := by
              by_contra hge2
              rw [List.getElem?_eq_none (by omega)] at hdl0
              cases hdl0
            refine ⟨line0, l0, inv0, by simpa using hdl0, by simpa using hs0, ?_, ?_⟩
            · have hfr := reconcileLoop_ok_frame h ownerId locPages cache_comment rest
                (i + 1) (data.set i l0) dataF invs2 hrest' i (by omega)
              have hset : (data.set i l0)[i]? = some l0 := by
                simp [List.getElem?_set_self, hlt]
              simpa using hfr.trans hset
            · rw [← hinvs]
              simp only [Nat.add_zero]
              cases inv0 with
              | false =>
                simp only [if_neg Bool.false_ne_true, List.nil_append]
                constructor
                · intro hmem
                  have := hge i hmem
                  omega
                · intro hfalse
                  cases hfalse
              | true =>
                simp
          | succ k' =>
            have hk' : rest[k']? = some e := by simpa using hk
            obtain ⟨line, l', inv, hdl, hs, hdf, hmem⟩ :=
              ih (i + 1) (data.set i l0) dataF invs2 hrest' k' e hk'
            have hidx : i + 1 + k' = i + (k' + 1) := by omega
            refine ⟨line, l', inv, ?_, ?_, ?_, ?_⟩
            · rw [← hidx, ← hdl]
              exact (List.getElem?_set_ne (by omega)).symm
            · rw [← hidx]; exact hs
            · rw [← hidx]; exact hdf
            · rw [← hinvs, ← hidx]
              rw [← hmem]
              cases inv0 with
              | false => simp
              | true =>
                have hne : ¬(i + 1 + k' = i) := by omega
                simp [hne]

/-- If reconciling the first `k` repositories succeeds, producing in-memory
entries `data_k`, and the step at index `k` then fails, the whole pass fails
with that same error. -/
theorem reconcileLoop_fail_after_prefix (h : List Char → List Char)
    (ownerId : List Char) (locPages : Nat → List Fetch)
    (cache_comment : List (List Char)) :
    ∀ (k : Nat) (es : List Edge) (i : Nat) (data data_k : List (List Char))
      (invs_k : List Nat) (e : Edge) (err : BuildErr) (inv : Bool),
      reconcileLoop h ownerId locPages cache_comment i (es.take k) data =
        (.ok data_k, invs_k) →
      es[k]? = some e →
      reconcileStep h ownerId locPages cache_comment (i + k) e data_k =
        (.error err, inv) →
      ∃ invs, reconcileLoop h ownerId locPages cache_comment i es data =
        (.error err, invs) := by
  intro k
  induction k with
  | zero =>
    intro es i data data_k invs_k e err inv hpre hk hstep
    simp [reconcileLoop] at hpre
    obtain ⟨rfl, rfl⟩ := hpre
    cases es with
    | nil => simp at hk
    | cons e0 rest =>
      have he : e0 = e := by simpa using hk
      subst he
      rw [Nat.add_zero] at hstep
      refine ⟨if inv then [i] else [], ?_⟩
      simp only [reconcileLoop, hstep]
  | succ k' ih =>
    intro es i data data_k invs_k e err inv hpre hk hstep
    cases es with
    | nil => simp at hk
    | cons e0 rest =>
      have hk' : rest[k']? = some e := by simpa using hk
      simp only [List.take_succ_cons, reconcileLoop] at hpre
      cases hstep0 : reconcileStep h ownerId locPages cache_comment i e0 data with
      | mk r0 inv0 =>
        rw [hstep0] at hpre
        cases r0 with
        | error err0 => simp at hpre
        | ok d0 =>
          dsimp only at hpre
          cases hmid : reconcileLoop h ownerId locPages cache_comment (i + 1)
              (rest.take k') d0 with
          | mk rm invsm =>
            rw [hmid] at hpre
            simp only [Prod.mk.injEq] at hpre
            have hmid' : reconcileLoop h ownerId locPages cache_comment (i + 1)
                (rest.take k') d0 = (.ok data_k, invsm) := by
              rw [hmid]; exact Prod.ext hpre.1 rfl
            have hstep' : reconcileStep h ownerId locPages cache_comment
                (i + 1 + k') e data_k = (.error err, inv) := by
              rw [show i + 1 + k' = i + (k' + 1) by omega]
              exact hstep
            obtain ⟨invs, hfail⟩ := ih rest (i + 1) d0 data_k invsm e err inv
              hmid' hk' hstep'
            refine ⟨(if inv0 then [i] else []) ++ invs, ?_⟩
            simp only [reconcileLoop, hstep0]
            rw [hfail]

/-- If every stored line is a fixed point of its step (the step rewrites the
line to itself), the whole reconciliation pass succeeds and leaves the entry
lines unchanged. -/
theorem reconcileLoop_fixpoint (h : List Char → List Char)
    (ownerId : List Char) (locPages : Nat → List Fetch)
    (cache_comment : List (List Char)) :
    ∀ (es : List Edge) (i : Nat) (data : List (List Char)),
      (∀ (k : Nat) (e : Edge), es[k]? = some e →
        ∃ line inv, data[i + k]? = some line ∧
          stepOnLine h ownerId locPages (i + k) e line = some (line, inv)) →
      ∃ invs, reconcileLoop h ownerId locPages cache_comment i es data =
        (.ok data, invs) := by
  intro es
  induction es with
  | nil => intro i data hfix; exact ⟨[], by simp [reconcileLoop]⟩
  | cons e0 rest ih =>
    intro i data hfix
    obtain ⟨line0, inv0, hdl0, hs0⟩ := hfix 0 e0 (by simp)
    rw [Nat.add_zero] at hdl0 hs0
    have hstep := reconcileStep_of_stepOnLine h ownerId locPages cache_comment
      i e0 data line0 line0 inv0 hdl0 hs0
    rw [set_getElem_self data i line0 hdl0] at hstep
    have hfix' : ∀ (k : Nat) (e : Edge), rest[k]? = some e →
        ∃ line inv, data[i + 1 + k]? = some line ∧
          stepOnLine h ownerId locPages (i + 1 + k) e line = some (line, inv) := by
      intro k e hk
      have := hfix (k + 1) e (by simpa using hk)
      rw [show i + (k + 1) = i + 1 + k by omega] at this
      exact this
    obtain ⟨invs, hloop⟩ := ih (i + 1) data hfix'
    refine ⟨(if inv0 then [i] else []) ++ invs, ?_⟩
    simp only [reconcileLoop, hstep]
    rw [hloop]

/-- When the stored entry count matches the live listing and no rebuild is
forced, `cache_builder` skips the flush: the comment block and entry lines
are split from the file as read, and `cached` stays `True`. -/
theorem cache_builder_no_flush (h : List Char → List Char) (ownerId : List Char)
    (locPages : Nat → List Fetch) (edges : List Edge) (cs : Nat)
    (data0 : List (List Char)) (la ld : Int)
    (hnf : (data0.length : Int) - (cs : Int) = (edges.length : Int)) :
    cache_builder h ownerId locPages edges cs false (some data0) la ld =
      cbFinish (data0.take cs) data0
        (reconcileLoop h ownerId locPages (data0.take cs) 0 edges (data0.drop cs))
        la ld true := by
  have hflag : ((((data0.length : Int) - (cs : Int)) != (edges.length : Int)) || false)
      = false := by
    simp [hnf]
  simp [cache_builder, readOrCreate, hflag]

/-- When the entry count differs from the listing length or a rebuild is
forced, `cache_builder` flushes first: the loop runs on the zeroed entries
of the flushed file and `cached` is `False`. -/
theorem cache_builder_flush (h : List Char → List Char) (ownerId : List Char)
    (locPages : Nat → List Fetch) (edges : List Edge) (cs : Nat)
    (force_cache : Bool) (file0 : Option (List (List Char))) (la ld : Int)
    (htrig : ((readOrCreate cs file0).length : Int) - (cs : Int) ≠ (edges.length : Int)
      ∨ force_cache = true) :
    cache_builder h ownerId locPages edges cs force_cache file0 la ld =
      cbFinish ((flush_cache h edges (readOrCreate cs file0) cs).take cs)
        (flush_cache h edges (readOrCreate cs file0) cs)
        (reconcileLoop h ownerId locPages
          ((flush_cache h edges (readOrCreate cs file0) cs).take cs) 0 edges
          ((flush_cache h edges (readOrCreate cs file0) cs).drop cs))
        la ld false := by
  have hflag : (((((readOrCreate cs file0).length : Int) - (cs : Int))
      != (edges.length : Int)) || force_cache) = true := by
    rcases htrig with htrig | htrig
    · simp [htrig]
    · simp [htrig]
  simp [cache_builder, hflag]

/-- Decomposition of a successful no-flush `cache_builder` run into its
reconciliation-loop result. -/
theorem cache_builder_no_flush_ok (h : List Char → List Char)
    (ownerId : List Char) (locPages : Nat → List Fetch) (edges : List Edge)
    (cs : Nat) (data0 : List (List Char)) (la ld : Int) (res : BuildResult)
    (hnf : (data0.length : Int) - (cs : Int) = (edges.length : Int))
    (hok : (cache_builder h ownerId locPages edges cs false (some data0) la ld).outcome
      = .ok res) :
    ∃ dataF invs,
      reconcileLoop h ownerId locPages (data0.take cs) 0 edges (data0.drop cs) =
        (.ok dataF, invs) ∧
      (cache_builder h ownerId locPages edges cs false (some data0) la ld).file =
        data0.take cs ++ dataF ∧
      (cache_builder h ownerId locPages edges cs false (some data0) la ld).invoked =
        invs ∧
      res.cached = true := by
  rw [cache_builder_no_flush h ownerId locPages edges cs data0 la ld hnf] at hok ⊢
  cases hL : reconcileLoop h ownerId locPages (data0.take cs) 0 edges (data0.drop cs) with
  | mk r invs =>
    cases r with
    | error err =>
      rw [hL] at hok
      cases err <;> simp [cbFinish] at hok
    | ok dataF =>
      rw [hL] at hok
      cases hag : aggregate dataF la ld with
      | none => simp [cbFinish, hag] at hok
      | some p =>
        cases p with
        | mk a d =>
          simp only [cbFinish, hag, Except.ok.injEq] at hok
          refine ⟨dataF, invs, rfl, by simp [cbFinish, hag], by simp [cbFinish, hag], ?_⟩
          rw [← hok]

/-- Indexing an entry at offset `comment_size + i` of the written file hits
entry `i` (the comment block occupies exactly `comment_size` lines when the
file had at least that many). -/
theorem getElem_take_append (data0 dataF : List (List Char)) (cs i : Nat)
    (hcs : cs ≤ data0.length) :
    (data0.take cs ++ dataF)[cs + i]? = dataF[i]? := by
  have hlen : (data0.take cs).length = cs := by
    simp [List.length_take]
    omega
  have hx : (data0.take cs ++ dataF)[(data0.take cs).length + i]? = dataF[i]? := by
    simp [List.getElem?_append_right]
  rw [hlen] at hx
  exact hx

/-- `stepOnLine` on an entry whose stored hash matches and whose stored
commit count equals the live count: the line is reused verbatim and the
Accumulator is not invoked. -/
theorem stepOnLine_cached (h : List Char → List Char) (ownerId : List Char)
    (locPages : Nat → List Fetch) (i : Nat) (e : Edge) (line t0 t1 : List Char)
    (ts : List (List Char)) (cur : Int)
    (hsp : pySplit line = t0 :: t1 :: ts) (hh : t0 = h e.nameWithOwner)
    (hdb : e.defaultBranchTotal = some cur) (hpi : parseInt t1 = some cur) :
    stepOnLine h ownerId locPages i e line = some (line, false) := by
  simp [stepOnLine, hsp, hh, hdb, hpi]

/-- `stepOnLine` on an entry whose stored hash does not match the live
repository name: the line is left in place and nothing is recomputed. -/
theorem stepOnLine_mismatch (h : List Char → List Char) (ownerId : List Char)
    (locPages : Nat → List Fetch) (i : Nat) (e : Edge) (line t0 t1 : List Char)
    (ts : List (List Char))
    (hsp : pySplit line = t0 :: t1 :: ts) (hh : ¬t0 = h e.nameWithOwner) :
    stepOnLine h ownerId locPages i e line = some (line, false) := by
  simp [stepOnLine, hsp, hh]

/-- `stepOnLine` on a stale entry (matching hash, differing counts) with a
successful accumulation: the entry is overwritten with the live count and
the fresh `(additions, deletions, contributorCommits)`. -/
theorem stepOnLine_stale (h : List Char → List Char) (ownerId : List Char)
    (locPages : Nat → List Fetch) (i : Nat) (e : Edge) (line t0 t1 : List Char)
    (ts : List (List Char)) (cur cc : Int) (pr : List Char × List Char)
    (loc : Int × Int × Int)
    (hsp : pySplit line = t0 :: t1 :: ts) (hh : t0 = h e.nameWithOwner)
    (hdb : e.defaultBranchTotal = some cur) (hpi : parseInt t1 = some cc)
    (hcc : ¬cc = cur) (hss : splitSlash e.nameWithOwner = some pr)
    (hrl : recursive_loc ownerId (locPages i) [] [] 0 0 0 = .ok loc) :
    stepOnLine h ownerId locPages i e line =
      some (mkEntryLine (h e.nameWithOwner) cur loc.2.2 loc.1 loc.2.1, true) := by
  simp [stepOnLine, hsp, hh, hdb, hpi, hcc, hss, hrl]

/-- Claim C4: for a repository whose live commit count equals the stored
count (and whose stored hash matches), a (no-rebuild) reconciliation never
invokes the Accumulator for that index and writes the cached entry line
back verbatim. -/
theorem cache_builder_equal_count_reuses (h : List Char → List Char)
    (ownerId : List Char) (locPages : Nat → List Fetch) (edges : List Edge)
    (cs : Nat) (data0 : List (List Char)) (i : Nat) (e : Edge)
    (line t0 t1 : List Char) (ts : List (List Char)) (cur : Int)
    (res : BuildResult)
    (hnf : (data0.length : Int) - (cs : Int) = (edges.length : Int))
    (hcs : cs ≤ data0.length)
    (hi : edges[i]? = some e)
    (hline : data0[cs + i]? = some line)
    (hsp : pySplit line = t0 :: t1 :: ts)
    (hh : t0 = h e.nameWithOwner)
    (hdb : e.defaultBranchTotal = some cur)
    (hpi : parseInt t1 = some cur)
    (hok : (cache_builder h ownerId locPages edges cs false (some data0) 0 0).outcome
      = .ok res) :
    i ∉ (cache_builder h ownerId locPages edges cs false (some data0) 0 0).invoked ∧
    (cache_builder h ownerId locPages edges cs false (some data0) 0 0).file[cs + i]?
      = some line := by
  obtain ⟨dataF, invs, hL, hfile, hinv, _⟩ :=
    cache_builder_no_flush_ok h ownerId locPages edges cs data0 0 0 res hnf hok
  obtain ⟨line', l', inv, hdl, hs, hdf, hmem⟩ :=
    reconcileLoop_ok_pointwise h ownerId locPages (data0.take cs) edges 0
      (data0.drop cs) dataF invs hL i e hi
  rw [Nat.zero_add] at hdl hs hdf hmem
  rw [List.getElem?_drop, hline] at hdl
  injection hdl with hdl
  subst hdl
  have hsl := stepOnLine_cached h ownerId locPages i e line t0 t1 ts cur hsp hh hdb hpi
  rw [hs] at hsl
  injection hsl with hsl
  injection hsl with hsl1 hsl2
  constructor
  · rw [hinv]
    intro hmem'
    rw [hmem] at hmem'
    rw [hsl2] at hmem'
    cases hmem'
  · rw [hfile, getElem_take_append data0 dataF cs i hcs, hdf, hsl1]

/-- Witness for C4: a one-repository cache whose stored count equals the
live count is reused verbatim and the Accumulator is not invoked. -/
theorem cache_builder_equal_count_reuses_witness :
    0 ∉ (cache_builder (fun _ => ['h']) ['o'] (fun _ => []) [⟨['a'], some 1⟩] 0 false
        (some ["h 1 0 0 0\n".data]) 0 0).invoked ∧
    (cache_builder (fun _ => ['h']) ['o'] (fun _ => []) [⟨['a'], some 1⟩] 0 false
        (some ["h 1 0 0 0\n".data]) 0 0).file[0]? = some "h 1 0 0 0\n".data := by
  have := cache_builder_equal_count_reuses (fun _ => ['h']) ['o'] (fun _ => [])
    [⟨['a'], some 1⟩] 0 ["h 1 0 0 0\n".data] 0 ⟨['a'], some 1⟩
    "h 1 0 0 0\n".data ['h'] ['1'] [['0'], ['0'], ['0']] 1 ⟨0, 0, 0, true⟩
    (by decide) (by decide) (by decide) (by decide) (by decide) (by decide)
    (by decide) (by decide) (by decide)
  simpa using this

/-- Claim C9: when the stored entry's hash differs from the hash of the live
repository's name, a (no-rebuild) reconciliation leaves the stored line
untouched — no error, no recomputation (the step reuses the line and does
not invoke the Accumulator) — and still writes it back to the file at the
same position. -/
theorem cache_builder_hash_mismatch_keeps_line (h : List Char → List Char)
    (ownerId : List Char) (locPages : Nat → List Fetch) (edges : List Edge)
    (cs : Nat) (data0 : List (List Char)) (i : Nat) (e : Edge)
    (line t0 t1 : List Char) (ts : List (List Char)) (res : BuildResult)
    (hnf : (data0.length : Int) - (cs : Int) = (edges.length : Int))
    (hcs : cs ≤ data0.length)
    (hi : edges[i]? = some e)
    (hline : data0[cs + i]? = some line)
    (hsp : pySplit line = t0 :: t1 :: ts)
    (hh : ¬t0 = h e.nameWithOwner)
    (hok : (cache_builder h ownerId locPages edges cs false (some data0) 0 0).outcome
      = .ok res) :
    stepOnLine h ownerId locPages i e line = some (line, false) ∧
    i ∉ (cache_builder h ownerId locPages edges cs false (some data0) 0 0).invoked ∧
    (cache_builder h ownerId locPages edges cs false (some data0) 0 0).file[cs + i]?
      = some line := by
  obtain ⟨dataF, invs, hL, hfile, hinv, _⟩ :=
    cache_builder_no_flush_ok h ownerId locPages edges cs data0 0 0 res hnf hok
  obtain ⟨line', l', inv, hdl, hs, hdf, hmem⟩ :=
    reconcileLoop_ok_pointwise h ownerId locPages (data0.take cs) edges 0
      (data0.drop cs) dataF invs hL i e hi
  rw [Nat.zero_add] at hdl hs hdf hmem
  rw [List.getElem?_drop, hline] at hdl
  injection hdl with hdl
  subst hdl
  have hsl := stepOnLine_mismatch h ownerId locPages i e line t0 t1 ts hsp hh
  refine ⟨hsl, ?_, ?_⟩
  · rw [hs] at hsl
    injection hsl with hsl
    injection hsl with hsl1 hsl2
    rw [hinv]
    intro hmem'
    rw [hmem] at hmem'
    rw [hsl2] at hmem'
    cases hmem'
  · rw [hs] at hsl
    injection hsl with hsl
    injection hsl with hsl1 hsl2
    rw [hfile, getElem_take_append data0 dataF cs i hcs, hdf, hsl1]

/-- Witness for C9: a stored hash that does not match the live name is kept
as-is and written back, with the Accumulator never invoked. -/
theorem cache_builder_hash_mismatch_keeps_line_witness :
    stepOnLine (fun _ => ['h']) ['o'] (fun _ => []) 0 ⟨['a'], some 7⟩
      "x 1 2 3 4\n".data = some ("x 1 2 3 4\n".data, false) ∧
    0 ∉ (cache_builder (fun _ => ['h']) ['o'] (fun _ => []) [⟨['a'], some 7⟩] 0 false
        (some ["x 1 2 3 4\n".data]) 0 0).invoked ∧
    (cache_builder (fun _ => ['h']) ['o'] (fun _ => []) [⟨['a'], some 7⟩] 0 false
        (some ["x 1 2 3 4\n".data]) 0 0).file[0]? = some "x 1 2 3 4\n".data := by
  have := cache_builder_hash_mismatch_keeps_line (fun _ => ['h']) ['o'] (fun _ => [])
    [⟨['a'], some 7⟩] 0 ["x 1 2 3 4\n".data] 0 ⟨['a'], some 7⟩
    "x 1 2 3 4\n".data ['x'] ['1'] [['2'], ['3'], ['4']] ⟨3, 4, -1, true⟩
    (by decide) (by decide) (by decide) (by decide) (by decide) (by decide)
    (by decide)
  simpa using this

/-- Claim C1 (amended): for an index whose stored hash matches and whose
live commit count differs from the stored count, a (no-rebuild)
reconciliation invokes the Accumulator for that repository and overwrites
the entry with the live count and the freshly computed
contributorCommits/additions/deletions — but the returned `cached` flag
stays `true`: per-repository staleness does not clear it (only the
full-rebuild branch does). -/
theorem cache_builder_stale_recomputes (h : List Char → List Char)
    (ownerId : List Char) (locPages : Nat → List Fetch) (edges : List Edge)
    (cs : Nat) (data0 : List (List Char)) (i : Nat) (e : Edge)
    (line t0 t1 : List Char) (ts : List (List Char)) (cur cc : Int)
    (pr : List Char × List Char) (loc : Int × Int × Int) (res : BuildResult)
    (hnf : (data0.length : Int) - (cs : Int) = (edges.length : Int))
    (hcs : cs ≤ data0.length)
    (hi : edges[i]? = some e)
    (hline : data0[cs + i]? = some line)
    (hsp : pySplit line = t0 :: t1 :: ts)
    (hh : t0 = h e.nameWithOwner)
    (hdb : e.defaultBranchTotal = some cur)
    (hpi : parseInt t1 = some cc)
    (hcc : ¬cc = cur)
    (hss : splitSlash e.nameWithOwner = some pr)
    (hrl : recursive_loc ownerId (locPages i) [] [] 0 0 0 = .ok loc)
    (hok : (cache_builder h ownerId locPages edges cs false (some data0) 0 0).outcome
      = .ok res) :
    i ∈ (cache_builder h ownerId locPages edges cs false (some data0) 0 0).invoked ∧
    (cache_builder h ownerId locPages edges cs false (some data0) 0 0).file[cs + i]?
      = some (mkEntryLine (h e.nameWithOwner) cur loc.2.2 loc.1 loc.2.1) ∧
    res.cached = true := by
  obtain ⟨dataF, invs, hL, hfile, hinv, hcach⟩ :=
    cache_builder_no_flush_ok h ownerId locPages edges cs data0 0 0 res hnf hok
  obtain ⟨line', l', inv, hdl, hs, hdf, hmem⟩ :=
    reconcileLoop_ok_pointwise h ownerId locPages (data0.take cs) edges 0
      (data0.drop cs) dataF invs hL i e hi
  rw [Nat.zero_add] at hdl hs hdf hmem
  rw [List.getElem?_drop, hline] at hdl
  injection hdl with hdl
  subst hdl
  have hsl := stepOnLine_stale h ownerId locPages i e line t0 t1 ts cur cc pr loc
    hsp hh hdb hpi hcc hss hrl
  rw [hs] at hsl
  injection hsl with hsl
  injection hsl with hsl1 hsl2
  refine ⟨?_, ?_, hcach⟩
  · rw [hinv, hmem, ← hsl2]
  · rw [hfile, getElem_take_append data0 dataF cs i hcs, hdf, hsl1]

/-- Witness for C1 (amended): stored count 1, live count 2 — the
Accumulator runs (index 0 invoked), the entry is overwritten with the live
count and fresh totals, and the returned flag is still `true`. -/
theorem cache_builder_stale_recomputes_witness :
    0 ∈ (cache_builder (fun _ => ['h']) ['o']
        (fun _ => [Fetch.ok (some ⟨[], ⟨none, false⟩⟩)])
        [⟨"a/b".data, some 2⟩] 0 false (some ["h 1 0 0 0\n".data]) 0 0).invoked ∧
    (cache_builder (fun _ => ['h']) ['o']
        (fun _ => [Fetch.ok (some ⟨[], ⟨none, false⟩⟩)])
        [⟨"a/b".data, some 2⟩] 0 false (some ["h 1 0 0 0\n".data]) 0 0).file[0]?
      = some (mkEntryLine ['h'] 2 0 0 0) ∧
    (⟨0, 0, 0, true⟩ : BuildResult).cached = true := by
  have := cache_builder_stale_recomputes (fun _ => ['h']) ['o']
    (fun _ => [Fetch.ok (some ⟨[], ⟨none, false⟩⟩)])
    [⟨"a/b".data, some 2⟩] 0 ["h 1 0 0 0\n".data] 0 ⟨"a/b".data, some 2⟩
    "h 1 0 0 0\n".data ['h'] ['1'] [['0'], ['0'], ['0']] 2 1 (['a'], ['b'])
    (0, 0, 0) ⟨0, 0, 0, true⟩
    (by decide) (by decide) (by decide) (by decide) (by decide) (by decide)
    (by decide) (by decide) (by decide) (by decide) (by decide) (by decide)
  simpa using this

/-- Counterexample to C1 as stated: with one repository whose stored commit
count (1) differs from the live count (2), the Accumulator is invoked
(index 0) and the entry is overwritten — but the returned `fullyCached`
flag is `true`, not `false` as the claim requires (`cached` is only cleared
by the full-rebuild branch, lines 406–408). -/
theorem cache_builder_stale_flag_cex :
    (cache_builder (fun _ => ['h']) ['o']
        (fun _ => [Fetch.ok (some ⟨[], ⟨none, false⟩⟩)])
        [⟨"a/b".data, some 2⟩] 0 false (some ["h 1 0 0 0\n".data]) 0 0).invoked
      = [0] ∧
    (cache_builder (fun _ => ['h']) ['o']
        (fun _ => [Fetch.ok (some ⟨[], ⟨none, false⟩⟩)])
        [⟨"a/b".data, some 2⟩] 0 false (some ["h 1 0 0 0\n".data]) 0 0).outcome
      = .ok ⟨0, 0, 0, true⟩ := by
  decide

/-- Claim C2: if reconciling the first `k` repositories of a (no-rebuild)
pass succeeded, leaving in-memory entries `data_k`, and the Accumulator's
page requests for repository `k` fail (non-success status, transport
failure, or any failing page mid-pagination — `hfail`), then the failure
propagates out of `cache_builder` and the partial save has written the
comment block followed by the current in-memory entry list — so every entry
reconciled before index `k` is on disk after the failure. -/
theorem cache_builder_partial_save (h : List Char → List Char)
    (ownerId : List Char) (locPages : Nat → List Fetch) (edges : List Edge)
    (cs : Nat) (data0 : List (List Char)) (k : Nat) (e : Edge)
    (data_k : List (List Char)) (invs_k : List Nat)
    (line t0 t1 : List Char) (ts : List (List Char)) (cur cc : Int)
    (pr : List Char × List Char) (f : LocFailure)
    (hnf : (data0.length : Int) - (cs : Int) = (edges.length : Int))
    (hcs : cs ≤ data0.length)
    (hpre : reconcileLoop h ownerId locPages (data0.take cs) 0 (edges.take k)
      (data0.drop cs) = (.ok data_k, invs_k))
    (hk : edges[k]? = some e)
    (hline : data_k[k]? = some line)
    (hsp : pySplit line = t0 :: t1 :: ts)
    (hh : t0 = h e.nameWithOwner)
    (hdb : e.defaultBranchTotal = some cur)
    (hpi : parseInt t1 = some cc)
    (hcc : ¬cc = cur)
    (hss : splitSlash e.nameWithOwner = some pr)
    (hfail : recursive_loc ownerId (locPages k) data_k (data0.take cs) 0 0 0
      = .error f) :
    (cache_builder h ownerId locPages edges cs false (some data0) 0 0).outcome
      = .error (.locFail f) ∧
    (cache_builder h ownerId locPages edges cs false (some data0) 0 0).file
      = data0.take cs ++ data_k ∧
    ∀ j, (cache_builder h ownerId locPages edges cs false (some data0) 0 0).file[cs + j]?
      = data_k[j]? := by
  have hstep : reconcileStep h ownerId locPages (data0.take cs) k e data_k =
      (.error (.locFail f), true) := by
    simp [reconcileStep, hline, hsp, hh, hdb, hpi, hcc, hss, hfail]
  obtain ⟨invs, hloop⟩ := reconcileLoop_fail_after_prefix h ownerId locPages
    (data0.take cs) k edges 0 (data0.drop cs) data_k invs_k e (.locFail f) true
    hpre hk (by rw [Nat.zero_add]; exact hstep)
  have hsaved : f.savedFile = data0.take cs ++ data_k :=
    recursive_loc_error_savedFile ownerId (locPages k) data_k (data0.take cs)
      0 0 0 f hfail
  rw [cache_builder_no_flush h ownerId locPages edges cs data0 0 0 hnf, hloop]
  refine ⟨by simp [cbFinish], ?_, ?_⟩
  · simp [cbFinish, hsaved]
  · intro j
    simp only [cbFinish, hsaved]
    exact getElem_take_append data0 data_k cs j hcs

/-- Witness for C2: two repositories, both stale; repository 0 reconciles
successfully (entry rewritten to `h 2 1 5 3`), repository 1's page request
returns HTTP 500 — the run fails, and the saved file holds repository 0's
freshly reconciled entry. -/
theorem cache_builder_partial_save_witness :
    (cache_builder (fun s => if s = "a/b".data then ['h'] else ['g']) ['o']
        (fun i => if i = 0
          then [Fetch.ok (some ⟨[⟨some ['o'], 5, 3⟩], ⟨none, false⟩⟩)]
          else [Fetch.httpErr 500 []])
        [⟨"a/b".data, some 2⟩, ⟨"c/d".data, some 5⟩] 0 false
        (some ["h 1 0 0 0\n".data, "g 1 0 0 0\n".data]) 0 0).outcome
      = .error (.locFail ⟨["h 2 1 5 3\n".data, "g 1 0 0 0\n".data],
          .httpStatus 500 []⟩) ∧
    (cache_builder (fun s => if s = "a/b".data then ['h'] else ['g']) ['o']
        (fun i => if i = 0
          then [Fetch.ok (some ⟨[⟨some ['o'], 5, 3⟩], ⟨none, false⟩⟩)]
          else [Fetch.httpErr 500 []])
        [⟨"a/b".data, some 2⟩, ⟨"c/d".data, some 5⟩] 0 false
        (some ["h 1 0 0 0\n".data, "g 1 0 0 0\n".data]) 0 0).file[0]?
      = some "h 2 1 5 3\n".data := by
  have hw := cache_builder_partial_save
    (fun s => if s = "a/b".data then ['h'] else ['g']) ['o']
    (fun i => if i = 0
      then [Fetch.ok (some ⟨[⟨some ['o'], 5, 3⟩], ⟨none, false⟩⟩)]
      else [Fetch.httpErr 500 []])
    [⟨"a/b".data, some 2⟩, ⟨"c/d".data, some 5⟩] 0
    ["h 1 0 0 0\n".data, "g 1 0 0 0\n".data] 1 ⟨"c/d".data, some 5⟩
    ["h 2 1 5 3\n".data, "g 1 0 0 0\n".data] [0]
    "g 1 0 0 0\n".data ['g'] ['1'] [['0'], ['0'], ['0']] 5 1 (['c'], ['d'])
    ⟨["h 2 1 5 3\n".data, "g 1 0 0 0\n".data], .httpStatus 500 []⟩
    (by decide) (by decide) (by decide) (by decide) (by decide) (by decide)
    (by decide) (by decide) (by decide) (by decide) (by decide) (by decide)
  refine ⟨hw.1, ?_⟩
  have h3 := hw.2.2 0
  simpa using h3

/-- The aggregation loop with explicit accumulators sums the additions and
deletions fields of every (well-formed) entry line. -/
theorem aggregate_acc :
    ∀ (lines : List (List Char)) (la ld : Int),
      (∀ l ∈ lines, (lineAdd l).isSome ∧ (lineDel l).isSome) →
      aggregate lines la ld =
        some (la + (lines.map (fun l => (lineAdd l).getD 0)).sum,
              ld + (lines.map (fun l => (lineDel l).getD 0)).sum) := by
  intro lines
  induction lines with
  | nil => intro la ld hwf; simp [aggregate]
  | cons l rest ih =>
    intro la ld hwf
    obtain ⟨ha, hd⟩ := hwf l (by simp)
    cases h3 : (pySplit l)[3]? with
    | none => rw [lineAdd, h3] at ha; simp at ha
    | some t3 =>
      cases h4 : (pySplit l)[4]? with
      | none => rw [lineDel, h4] at hd; simp at hd
      | some t4 =>
        cases hx : parseInt t3 with
        | none => rw [lineAdd, h3] at ha; simp [hx] at ha
        | some x =>
          cases hy : parseInt t4 with
          | none => rw [lineDel, h4] at hd; simp [hy] at hd
          | some y =>
            have hla : lineAdd l = some x := by rw [lineAdd, h3]; simpa using hx
            have hld : lineDel l = some y := by rw [lineDel, h4]; simpa using hy
            rw [aggregate, h3, h4]
            dsimp only
            rw [hx, hy]
            dsimp only
            rw [ih (la + x) (ld + y) (fun m hm => hwf m (by simp [hm]))]
            simp [hla, hld]
            constructor <;> ring

/-- A successful `cache_builder` result always satisfies
`net = locAdd - locDel` (the returned list is
`[loc_add, loc_del, loc_add - loc_del, cached]`). -/
theorem cbFinish_net (cache_comment data1 : List (List Char))
    (resP : Except BuildErr (List (List Char)) × List Nat) (la ld : Int)
    (cached : Bool) (res : BuildResult)
    (hok : (cbFinish cache_comment data1 resP la ld cached).outcome = .ok res) :
    res.netLoc = res.locAdd - res.locDel := by
  cases resP with
  | mk r invs =>
    cases r with
    | error err => cases err <;> simp [cbFinish] at hok
    | ok dataF =>
      cases hag : aggregate dataF la ld with
      | none => simp [cbFinish, hag] at hok
      | some p =>
        cases p with
        | mk a d =>
          simp only [cbFinish, hag, Except.ok.injEq] at hok
          rw [← hok]

/-- Claim C6: for well-formed entry lines the aggregation step returns
`totalAdditions` equal to the sum of every entry's additions field and
`totalDeletions` equal to the sum of every deletions field; and every value
`cache_builder` returns satisfies `net = totalAdditions - totalDeletions`
exactly. -/
theorem aggregate_totals (lines : List (List Char))
    (hwf : ∀ l ∈ lines, (lineAdd l).isSome ∧ (lineDel l).isSome) :
    aggregate lines 0 0 =
      some ((lines.map (fun l => (lineAdd l).getD 0)).sum,
            (lines.map (fun l => (lineDel l).getD 0)).sum) ∧
    ∀ (hf : List Char → List Char) (ownerId : List Char)
      (locPages : Nat → List Fetch) (edges : List Edge) (cs : Nat)
      (force_cache : Bool) (file0 : Option (List (List Char))) (la ld : Int)
      (res : BuildResult),
      (cache_builder hf ownerId locPages edges cs force_cache file0 la ld).outcome
        = .ok res →
      res.netLoc = res.locAdd - res.locDel := by
  constructor
  · have := aggregate_acc lines 0 0 hwf
    simpa using this
  · intro hf ownerId locPages edges cs force_cache file0 la ld res hok
    rw [cache_builder] at hok
    exact cbFinish_net _ _ _ la ld _ res hok

/-- Witness for C6: two concrete well-formed lines sum to `(13, 6)`, and a
concrete successful run returns `net = locAdd - locDel`. -/
theorem aggregate_totals_witness :
    aggregate ["h 1 2 3 4\n".data, "g 0 0 10 2\n".data] 0 0 = some (13, 6) ∧
    (⟨3, 4, -1, true⟩ : BuildResult).netLoc =
      (⟨3, 4, -1, true⟩ : BuildResult).locAdd -
      (⟨3, 4, -1, true⟩ : BuildResult).locDel := by
  obtain ⟨h1, h2⟩ := aggregate_totals ["h 1 2 3 4\n".data, "g 0 0 10 2\n".data]
    (by decide)
  constructor
  · rw [h1]; decide
  · exact h2 (fun _ => ['h']) ['o'] (fun _ => []) [⟨['a'], some 7⟩] 0 false
      (some ["x 1 2 3 4\n".data]) 0 0 ⟨3, 4, -1, true⟩ (by decide)

/-- Claim C5: when the stored entry count differs from the live listing
length or the forced-rebuild flag is set, reconciliation rebuilds the cache
in full: `flush_cache` keeps the comment block (`take comment_size` of the
stored file) and replaces every entry by the zeroed entry
`hash 0 0 0 0` in listing order; the flushed file has exactly
`comment_size + len(edges)` lines; and a successful run returns
`cached = false` with a final file of exactly that many lines. -/
theorem cache_builder_rebuild (h : List Char → List Char) (ownerId : List Char)
    (locPages : Nat → List Fetch) (edges : List Edge) (cs : Nat)
    (force_cache : Bool) (file0 : Option (List (List Char))) (res : BuildResult)
    (htrig : ((readOrCreate cs file0).length : Int) - (cs : Int)
        ≠ (edges.length : Int) ∨ force_cache = true)
    (hcs : cs ≤ (readOrCreate cs file0).length) :
    flush_cache h edges (readOrCreate cs file0) cs =
      (readOrCreate cs file0).take cs ++
        edges.map (fun e => mkEntryLine (h e.nameWithOwner) 0 0 0 0) ∧
    (flush_cache h edges (readOrCreate cs file0) cs).length = cs + edges.length ∧
    ((cache_builder h ownerId locPages edges cs force_cache file0 0 0).outcome
        = .ok res →
      res.cached = false ∧
      (cache_builder h ownerId locPages edges cs force_cache file0 0 0).file.length
        = cs + edges.length) := by
  have hfl : flush_cache h edges (readOrCreate cs file0) cs =
      (readOrCreate cs file0).take cs ++
        edges.map (fun e => mkEntryLine (h e.nameWithOwner) 0 0 0 0) := by
    cases cs with
    | zero => simp [flush_cache]
    | succ n => simp [flush_cache]
  have hlen : (flush_cache h edges (readOrCreate cs file0) cs).length
      = cs + edges.length := by
    rw [hfl]
    simp [List.length_take]
    omega
  refine ⟨hfl, hlen, ?_⟩
  intro hok
  rw [cache_builder_flush h ownerId locPages edges cs force_cache file0 0 0 htrig]
    at hok ⊢
  cases hL : reconcileLoop h ownerId locPages
      ((flush_cache h edges (readOrCreate cs file0) cs).take cs) 0 edges
      ((flush_cache h edges (readOrCreate cs file0) cs).drop cs) with
  | mk r invs =>
    cases r with
    | error err =>
      rw [hL] at hok
      cases err <;> simp [cbFinish] at hok
    | ok dataF =>
      rw [hL] at hok
      have hdflen : dataF.length = edges.length := by
        have := reconcileLoop_ok_length h ownerId locPages
          ((flush_cache h edges (readOrCreate cs file0) cs).take cs) edges 0
          ((flush_cache h edges (readOrCreate cs file0) cs).drop cs) dataF invs hL
        rw [this, List.length_drop, hlen]
        omega
      cases hag : aggregate dataF 0 0 with
      | none => simp [cbFinish, hag] at hok
      | some p =>
        cases p with
        | mk a d =>
          simp only [cbFinish, hag, Except.ok.injEq] at hok
          constructor
          · rw [← hok]
          · simp only [cbFinish, hag]
            simp [List.length_take, hlen, hdflen]

/-- Witness for C5: an empty cache file with one live repository triggers
the rebuild; the flushed file has exactly one (zeroed) entry line, and the
successful run returns `cached = false` with a final file of one line. -/
theorem cache_builder_rebuild_witness :
    (flush_cache (fun _ => ['h']) [⟨['a'], some 0⟩] (readOrCreate 0 (some [])) 0).length
      = 0 + 1 ∧
    (⟨0, 0, 0, false⟩ : BuildResult).cached = false ∧
    (cache_builder (fun _ => ['h']) ['o'] (fun _ => []) [⟨['a'], some 0⟩] 0 false
        (some []) 0 0).file.length = 0 + 1 := by
  obtain ⟨h1, h2, h3⟩ := cache_builder_rebuild (fun _ => ['h']) ['o'] (fun _ => [])
    [⟨['a'], some 0⟩] 0 false (some []) ⟨0, 0, 0, false⟩ (by decide) (by decide)
  obtain ⟨h4, h5⟩ := h3 (by decide)
  exact ⟨by simpa using h2, h4, h5⟩

/-- Digit characters are not whitespace. -/
theorem isWS_digitChar (d : Nat) : isWS (digitChar d) = false := by
  unfold digitChar
  split_ifs <;> decide

/-- Digit characters are digits. -/
theorem isDigitChar_digitChar (d : Nat) : isDigitChar (digitChar d) = true := by
  unfold digitChar
  split_ifs <;> decide

/-- `digitVal` inverts `digitChar` below 10. -/
theorem digitVal_digitChar (d : Nat) (hd : d < 10) :
    digitVal (digitChar d) = d := by
  unfold digitChar
  split_ifs with h0 h1 h2 h3 h4 h5 h6 h7 h8
  · subst h0; rfl
  · subst h1; rfl
  · subst h2; rfl
  · subst h3; rfl
  · subst h4; rfl
  · subst h5; rfl
  · subst h6; rfl
  · subst h7; rfl
  · subst h8; rfl
  · have h9 : d = 9 := by omega
    subst h9; rfl

/-- With enough fuel, the rendered decimal digits of `n` are nonempty and
all digit characters. -/
theorem natCharsAux_digits :
    ∀ (fuel n : Nat), n < fuel →
      natCharsAux fuel n ≠ [] ∧
      ∀ c ∈ natCharsAux fuel n, isDigitChar c = true ∧ isWS c = false := by
  intro fuel
  induction fuel with
  | zero => intro n hn; omega
  | succ fuel ih =>
    intro n hn
    by_cases h10 : n < 10
    · rw [natCharsAux, if_pos h10]
      refine ⟨by simp, ?_⟩
      intro c hc
      simp at hc
      subst hc
      exact ⟨isDigitChar_digitChar n, isWS_digitChar n⟩
    · rw [natCharsAux, if_neg h10]
      have hlt : n / 10 < fuel := by omega
      obtain ⟨hne, hall⟩ := ih (n / 10) hlt
      refine ⟨by simp [hne], ?_⟩
      intro c hc
      rw [List.mem_append] at hc
      rcases hc with hc | hc
      · exact hall c hc
      · simp at hc
        subst hc
        exact ⟨isDigitChar_digitChar (n % 10), isWS_digitChar (n % 10)⟩

/-- Folding the decimal digits of `n` over an accumulator recovers
`acc * 10 ^ digits + n`. -/
theorem natCharsAux_foldl :
    ∀ (fuel n acc : Nat), n < fuel →
      (natCharsAux fuel n).foldl (fun a c => 10 * a + digitVal c) acc =
        acc * 10 ^ (natCharsAux fuel n).length + n := by
  intro fuel
  induction fuel with
  | zero => intro n acc hn; omega
  | succ fuel ih =>
    intro n acc hn
    by_cases h10 : n < 10
    · rw [natCharsAux, if_pos h10]
      simp [digitVal_digitChar n h10]
      ring
    · rw [natCharsAux, if_neg h10]
      have hlt : n / 10 < fuel := by omega
      rw [List.foldl_append]
      rw [ih (n / 10) acc hlt]
      simp only [List.foldl_cons, List.foldl_nil, List.length_append,
        List.length_singleton]
      rw [digitVal_digitChar (n % 10) (by omega)]
      rw [pow_succ]
      have hgen : ∀ X : Nat, 10 * (X + n / 10) + n % 10 = X * 10 + n := by
        intro X
        omega
      rw [hgen (acc * 10 ^ (natCharsAux fuel (n / 10)).length)]
      ring

/-- Parsing the decimal rendering of a natural number gives it back. -/
theorem parseDigits_natChars (n : Nat) : parseDigits (natChars n) = some n := by
  obtain ⟨hne, hall⟩ := natCharsAux_digits (n + 1) n (by omega)
  unfold parseDigits natChars
  rw [if_neg hne]
  rw [if_pos (by rw [List.all_eq_true]; intro c hc; exact (hall c hc).1)]
  rw [natCharsAux_foldl (n + 1) n 0 (by omega)]
  simp

/-- The decimal rendering of an integer is a nonempty, whitespace-free
token. -/
theorem intChars_clean (i : Int) : CleanToken (intChars i) := by
  obtain ⟨hne, hall⟩ := natCharsAux_digits (i.natAbs + 1) i.natAbs (by omega)
  unfold intChars CleanToken natChars
  split_ifs with hneg
  · refine ⟨by simp, ?_⟩
    intro c hc
    rw [List.mem_cons] at hc
    rcases hc with hc | hc
    · subst hc; decide
    · exact (hall c hc).2
  · exact ⟨hne, fun c hc => (hall c hc).2⟩

/-- Parsing the decimal rendering of an integer gives it back. -/
theorem parseInt_intChars (i : Int) : parseInt (intChars i) = some i := by
  obtain ⟨hne, hall⟩ := natCharsAux_digits (i.natAbs + 1) i.natAbs (by omega)
  unfold intChars
  split_ifs with hneg
  · rw [parseInt]
    rw [if_pos rfl]
    rw [parseDigits_natChars i.natAbs]
    have hval : -(i.natAbs : Int) = i := by omega
    show some (-(i.natAbs : Int)) = some i
    rw [hval]
  · cases hnc : natChars i.natAbs with
    | nil => rw [natChars] at hnc; exact absurd hnc hne
    | cons c rest =>
      have hdig : isDigitChar c = true := by
        have : c ∈ natCharsAux (i.natAbs + 1) i.natAbs := by
          rw [← natChars, hnc]; simp
        exact (hall c this).1
      have hm : ¬c = '-' := by
        intro hcm
        subst hcm
        simp [isDigitChar] at hdig
      have hp : ¬c = '+' := by
        intro hcp
        subst hcp
        simp [isDigitChar] at hdig
      rw [parseInt, if_neg hm, if_neg hp, ← hnc, parseDigits_natChars i.natAbs]
      have hval : (i.natAbs : Int) = i := by omega
      show some ((i.natAbs : Int)) = some i
      rw [hval]

/-- Scanning a whitespace-free chunk just accumulates it (reversed) onto the
current token. -/
theorem pySplitAux_chunk (t : List Char) (ht : ∀ c ∈ t, isWS c = false) :
    ∀ (acc rest : List Char),
      pySplitAux acc (t ++ rest) = pySplitAux (t.reverse ++ acc) rest := by
  induction t with
  | nil => intro acc rest; simp
  | cons c t' ih =>
    intro acc rest
    have hc : isWS c = false := ht c (by simp)
    rw [List.cons_append, pySplitAux, if_neg (by simp [hc])]
    rw [ih (fun x hx => ht x (by simp [hx])) (c :: acc) rest]
    simp

/-- A clean token followed by a space splits off as one token. -/
theorem pySplit_token_space (t : List Char) (ht : ∀ c ∈ t, isWS c = false)
    (hne : t ≠ []) (rest : List Char) :
    pySplitAux [] (t ++ ' ' :: rest) = t :: pySplitAux [] rest := by
  rw [pySplitAux_chunk t ht [] (' ' :: rest)]
  rw [pySplitAux, if_pos (by decide)]
  rw [if_neg (by simp [hne])]
  simp

/-- A clean token followed by the final newline is the last token. -/
theorem pySplit_token_nl (t : List Char) (ht : ∀ c ∈ t, isWS c = false)
    (hne : t ≠ []) :
    pySplitAux [] (t ++ ['\n']) = [t] := by
  rw [pySplitAux_chunk t ht [] ['\n']]
  rw [pySplitAux, if_pos (by decide)]
  rw [if_neg (by simp [hne])]
  simp [pySplitAux]

/-- Splitting a freshly written cache entry line recovers exactly its five
fields, provided the hash is a clean token. -/
theorem pySplit_mkEntryLine (hsh : List Char) (c m a d : Int)
    (hcl : CleanToken hsh) :
    pySplit (mkEntryLine hsh c m a d) =
      [hsh, intChars c, intChars m, intChars a, intChars d] := by
  obtain ⟨hne, hws⟩ := hcl
  unfold pySplit mkEntryLine
  rw [show hsh ++ ' ' :: intChars c ++ ' ' :: intChars m ++ ' ' :: intChars a ++
      ' ' :: intChars d ++ ['\n'] =
      hsh ++ ' ' :: (intChars c ++ ' ' :: (intChars m ++ ' ' :: (intChars a ++
      ' ' :: (intChars d ++ ['\n'])))) by simp]
  rw [pySplit_token_space hsh hws hne]
  rw [pySplit_token_space (intChars c) (intChars_clean c).2 (intChars_clean c).1]
  rw [pySplit_token_space (intChars m) (intChars_clean m).2 (intChars_clean m).1]
  rw [pySplit_token_space (intChars a) (intChars_clean a).2 (intChars_clean a).1]
  rw [pySplit_token_nl (intChars d) (intChars_clean d).2 (intChars_clean d).1]

/-- Whatever line `stepOnLine` writes, running the same step again on the
written line reproduces it verbatim without invoking the Accumulator: a
reconciled entry is a fixed point of reconciliation (for a hash function
producing clean tokens). -/
theorem stepOnLine_idem (h : List Char → List Char) (ownerId : List Char)
    (locPages : Nat → List Fetch) (i : Nat) (e : Edge) (line l' : List Char)
    (inv : Bool) (hcl : CleanHash h)
    (hs : stepOnLine h ownerId locPages i e line = some (l', inv)) :
    stepOnLine h ownerId locPages i e l' = some (l', false) := by
  cases hsp : pySplit line with
  | nil => simp [stepOnLine, hsp] at hs
  | cons t0 r1 =>
    cases r1 with
    | nil => simp [stepOnLine, hsp] at hs
    | cons t1 ts =>
      by_cases hh : t0 = h e.nameWithOwner
      · cases hdb : e.defaultBranchTotal with
        | none =>
          simp only [stepOnLine, hsp, hh, if_true, hdb, Option.some.injEq,
            Prod.mk.injEq] at hs
          obtain ⟨rfl, rfl⟩ := hs
          rw [stepOnLine, pySplit_mkEntryLine (h e.nameWithOwner) 0 0 0 0
            (hcl e.nameWithOwner)]
          simp [hdb]
        | some cur =>
          cases hpi : parseInt t1 with
          | none => simp [stepOnLine, hsp, hh, hdb, hpi] at hs
          | some cc =>
            by_cases hcc : cc = cur
            · simp only [stepOnLine, hsp, hh, if_true, hdb, hpi, hcc,
                Option.some.injEq, Prod.mk.injEq, eq_self_iff_true] at hs
              obtain ⟨rfl, rfl⟩ := hs
              simp [stepOnLine, hsp, hh, hdb, hpi, hcc]
            · cases hss : splitSlash e.nameWithOwner with
              | none => simp [stepOnLine, hsp, hh, hdb, hpi, hcc, hss] at hs
              | some pr =>
                cases hrl : recursive_loc ownerId (locPages i) [] [] 0 0 0 with
                | error f => simp [stepOnLine, hsp, hh, hdb, hpi, hcc, hss, hrl] at hs
                | ok loc =>
                  simp only [stepOnLine, hsp, hh, if_true, hdb, hpi, hcc, if_false,
                    hss, hrl, Option.some.injEq, Prod.mk.injEq] at hs
                  obtain ⟨rfl, rfl⟩ := hs
                  rw [stepOnLine, pySplit_mkEntryLine (h e.nameWithOwner) cur
                    loc.2.2 loc.1 loc.2.1 (hcl e.nameWithOwner)]
                  simp [hdb, parseInt_intChars]
      · simp only [stepOnLine, hsp, hh, if_false, Option.some.injEq,
          Prod.mk.injEq] at hs
        obtain ⟨rfl, rfl⟩ := hs
        simp [stepOnLine, hsp, hh]

/-- Any successful `cache_builder` run decomposes as: some post-flush file
content `data1` of exactly `comment_size + len(edges)` lines, a successful
reconciliation pass over its entry lines, the final file
`comment + entries`, and the aggregation of the final entries into the
returned totals. -/
theorem cache_builder_ok_decomp (h : List Char → List Char)
    (ownerId : List Char) (locPages : Nat → List Fetch) (edges : List Edge)
    (cs : Nat) (force_cache : Bool) (file0 : Option (List (List Char)))
    (la ld : Int) (res : BuildResult)
    (hcs : cs ≤ (readOrCreate cs file0).length)
    (hok : (cache_builder h ownerId locPages edges cs force_cache file0 la ld).outcome
      = .ok res) :
    ∃ (data1 dataF : List (List Char)) (invs : List Nat),
      reconcileLoop h ownerId locPages (data1.take cs) 0 edges (data1.drop cs) =
        (.ok dataF, invs) ∧
      (cache_builder h ownerId locPages edges cs force_cache file0 la ld).file =
        data1.take cs ++ dataF ∧
      aggregate dataF la ld = some (res.locAdd, res.locDel) ∧
      data1.length = cs + edges.length := by
  cases hfn : ((((readOrCreate cs file0).length : Int) - (cs : Int))
      != (edges.length : Int)) || force_cache with
  | false =>
    have hparts := Bool.or_eq_false_iff.mp hfn
    have heq : ((readOrCreate cs file0).length : Int) - (cs : Int)
        = (edges.length : Int) := by
      have := hparts.1
      simpa [bne_eq_false_iff_eq] using this
    have hlen1 : (readOrCreate cs file0).length = cs + edges.length := by omega
    refine ⟨readOrCreate cs file0, ?_⟩
    simp only [cache_builder, hfn, Bool.false_eq_true, if_false, Bool.not_false]
      at hok ⊢
    cases hL : reconcileLoop h ownerId locPages ((readOrCreate cs file0).take cs)
        0 edges ((readOrCreate cs file0).drop cs) with
    | mk r invs =>
      cases r with
      | error err =>
        rw [hL] at hok
        cases err <;> simp [cbFinish] at hok
      | ok dataF =>
        rw [hL] at hok
        cases hag : aggregate dataF la ld with
        | none => simp [cbFinish, hag] at hok
        | some p =>
          cases p with
          | mk a d =>
            simp only [cbFinish, hag, Except.ok.injEq] at hok
            refine ⟨dataF, invs, rfl, by simp [cbFinish, hag], ?_, hlen1⟩
            rw [← hok, hag]
  | true =>
    have hlenf : (flush_cache h edges (readOrCreate cs file0) cs).length
        = cs + edges.length := by
      have hfl : flush_cache h edges (readOrCreate cs file0) cs =
          (readOrCreate cs file0).take cs ++
            edges.map (fun e => mkEntryLine (h e.nameWithOwner) 0 0 0 0) := by
        cases cs with
        | zero => simp [flush_cache]
        | succ n => simp [flush_cache]
      rw [hfl]
      simp [List.length_take]
      omega
    refine ⟨flush_cache h edges (readOrCreate cs file0) cs, ?_⟩
    simp only [cache_builder, hfn, if_true, Bool.not_true] at hok ⊢
    cases hL : reconcileLoop h ownerId locPages
        ((flush_cache h edges (readOrCreate cs file0) cs).take cs) 0 edges
        ((flush_cache h edges (readOrCreate cs file0) cs).drop cs) with
    | mk r invs =>
      cases r with
      | error err =>
        rw [hL] at hok
        cases err <;> simp [cbFinish] at hok
      | ok dataF =>
        rw [hL] at hok
        cases hag : aggregate dataF la ld with
        | none => simp [cbFinish, hag] at hok
        | some p =>
          cases p with
          | mk a d =>
            simp only [cbFinish, hag, Except.ok.injEq] at hok
            refine ⟨dataF, invs, rfl, by simp [cbFinish, hag], ?_, hlenf⟩
            rw [← hok, hag]

/-- Claim C3: running reconciliation a second time on the file a successful
run produced, with the same repository listing and the same remote data and
no forced rebuild, succeeds with `fullyCached = true` and leaves the entry
lines byte-for-byte identical (the hash is assumed to produce clean tokens,
as a hex digest does). -/
theorem cache_builder_idempotent (h : List Char → List Char)
    (ownerId : List Char) (locPages : Nat → List Fetch) (edges : List Edge)
    (cs : Nat) (force_cache : Bool) (file0 : Option (List (List Char)))
    (res1 : BuildResult)
    (hcl : CleanHash h)
    (hcs : cs ≤ (readOrCreate cs file0).length)
    (hok1 : (cache_builder h ownerId locPages edges cs force_cache file0 0 0).outcome
      = .ok res1) :
    ∃ res2 : BuildResult,
      (cache_builder h ownerId locPages edges cs false
        (some (cache_builder h ownerId locPages edges cs force_cache file0 0 0).file)
        0 0).outcome = .ok res2 ∧
      res2.cached = true ∧
      (cache_builder h ownerId locPages edges cs false
        (some (cache_builder h ownerId locPages edges cs force_cache file0 0 0).file)
        0 0).file.drop cs =
      (cache_builder h ownerId locPages edges cs force_cache file0 0 0).file.drop cs := by
  obtain ⟨data1, dataF, invs, hL1, hfile1, hagg, hlen1⟩ :=
    cache_builder_ok_decomp h ownerId locPages edges cs force_cache file0 0 0
      res1 hcs hok1
  have hlenF : dataF.length = edges.length := by
    have := reconcileLoop_ok_length h ownerId locPages (data1.take cs) edges 0
      (data1.drop cs) dataF invs hL1
    rw [this, List.length_drop]
    omega
  have htake1 : (data1.take cs).length = cs := by
    simp [List.length_take]
    omega
  have hfl1 : (cache_builder h ownerId locPages edges cs force_cache file0 0 0).file.length
      = cs + edges.length := by
    rw [hfile1, List.length_append, htake1, hlenF]
  have hnf2 : (((cache_builder h ownerId locPages edges cs force_cache file0 0 0).file.length : Int))
      - (cs : Int) = (edges.length : Int) := by
    rw [hfl1]
    push_cast
    omega
  have htake2 : (cache_builder h ownerId locPages edges cs force_cache file0 0 0).file.take cs
      = data1.take cs := by
    rw [hfile1]
    exact List.take_left' htake1
  have hdrop2 : (cache_builder h ownerId locPages edges cs force_cache file0 0 0).file.drop cs
      = dataF := by
    rw [hfile1]
    exact List.drop_left' htake1
  have hfix : ∀ (k : Nat) (e : Edge), edges[k]? = some e →
      ∃ line inv, dataF[0 + k]? = some line ∧
        stepOnLine h ownerId locPages (0 + k) e line = some (line, inv) := by
    intro k e hk
    obtain ⟨line, l', inv, hdl, hs, hdf, hmem⟩ :=
      reconcileLoop_ok_pointwise h ownerId locPages (data1.take cs) edges 0
        (data1.drop cs) dataF invs hL1 k e hk
    exact ⟨l', false, hdf,
      stepOnLine_idem h ownerId locPages (0 + k) e line l' inv hcl hs⟩
  obtain ⟨invs2, hL2⟩ := reconcileLoop_fixpoint h ownerId locPages
    (data1.take cs) edges 0 dataF hfix
  rw [cache_builder_no_flush h ownerId locPages edges cs
    (cache_builder h ownerId locPages edges cs force_cache file0 0 0).file 0 0 hnf2]
  rw [htake2, hdrop2, hL2]
  refine ⟨⟨res1.locAdd, res1.locDel, res1.locAdd - res1.locDel, true⟩, ?_, rfl, ?_⟩
  · simp [cbFinish, hagg]
  · simp only [cbFinish, hagg]
    exact List.drop_left' htake1

/-- Witness for C3: re-running reconciliation on the file left by a
successful run (one up-to-date repository) succeeds, reports
`cached = true`, and leaves the entry lines unchanged. -/
theorem cache_builder_idempotent_witness :
    (cache_builder (fun _ => ['h']) ['o'] (fun _ => []) [⟨['a'], some 1⟩] 0 false
        (some (cache_builder (fun _ => ['h']) ['o'] (fun _ => [])
          [⟨['a'], some 1⟩] 0 false (some ["h 1 0 0 0\n".data]) 0 0).file)
        0 0).file.drop 0 =
      (cache_builder (fun _ => ['h']) ['o'] (fun _ => []) [⟨['a'], some 1⟩] 0 false
        (some ["h 1 0 0 0\n".data]) 0 0).file.drop 0 ∧
    (cache_builder (fun _ => ['h']) ['o'] (fun _ => []) [⟨['a'], some 1⟩] 0 false
        (some (cache_builder (fun _ => ['h']) ['o'] (fun _ => [])
          [⟨['a'], some 1⟩] 0 false (some ["h 1 0 0 0\n".data]) 0 0).file)
        0 0).outcome = .ok ⟨0, 0, 0, true⟩ := by
  obtain ⟨res2, h1, h2, h3⟩ := cache_builder_idempotent (fun _ => ['h']) ['o']
    (fun _ => []) [⟨['a'], some 1⟩] 0 false (some ["h 1 0 0 0\n".data])
    ⟨0, 0, 0, true⟩ (fun s => show CleanToken ['h'] from ⟨by decide, by decide⟩) (by decide) (by decide)
  exact ⟨h3, by decide⟩
